import Mathlib

/-!
# Verification of the InterviewPreparation C routines

Shallow embedding of three C programs and proofs about them:

* `001.StriverSde/004.Recursion/001.subset_sums.c` — the subset-sum
  enumerator `solve`, its global state (`int pos; int sums[100];`), the
  descending comparator `cmp` and the driver `printSubSetSum`;
* `007.leetcode/33.Search_in_Rotated_Sorted_Array.c` — the rotated-array
  binary search `findMin`;
* `007.leetcode/34.Find_First_and_Last_Position_of_Element_in_Sorted_Array.c`
  — the boundary binary search `findBound`.

C `int` values are modelled as `Int` (no claim here depends on 32-bit
wrap-around), C arrays as `List Int`, and array reads `a[i]` as `getD`
with default 0; every read that matters is proved in range.
-/

namespace InterviewPrep

/-- Read `a[i]` for a C `int` array modelled as a list: `i` is a C `int`
index; out-of-range reads return the (irrelevant) default 0. -/
def getI (a : List Int) (i : Int) : Int := a.getD i.toNat 0

/-! ## subset_sums.c

```c
void solve(int idx, int arr[], int n, int sum)
{
    if (idx == n) {
        sums[pos++] = sum;
        return;
    }
    solve(idx+1, arr, n, sum + 0);
    solve(idx+1, arr, n, sum + arr[idx]);
    return;
}
```

The pair `(idx, arr)` with `0 ≤ idx ≤ n = len(arr)` is modelled by the
remaining suffix `arr.drop idx`: stepping `idx+1` drops the head, and
`idx == n` is the empty suffix. `solve` below returns the sequence of
values written to `sums`, in emission order (exclude branch first, then
include). -/
def solve : List Int → Int → List Int
  | [], sum => [sum]
  | a :: rest, sum => solve rest sum ++ solve rest (sum + a)

/-- The global mutable state of subset_sums.c:

```c
int pos = 0;
int sums[100];
```

`pos` is the write cursor; `writes` records every store
`sums[pos++] = sum` as an `(index, value)` pair in program order, so that
out-of-bounds stores (index ≥ 100) stay visible in the model. -/
structure EnumState where
  pos : Nat
  writes : List (Nat × Int)

/-- `int sums[100];` — the fixed capacity of the result buffer. -/
def capacity : Nat := 100

/-- The initial global state (`pos = 0`, nothing written). -/
def initState : EnumState := ⟨0, []⟩

/-- `solve` acting on the globals: each leaf performs `sums[pos++] = sum`. -/
def solveSt : List Int → Int → EnumState → EnumState
  | [], sum, st => ⟨st.pos + 1, st.writes ++ [(st.pos, sum)]⟩
  | a :: rest, sum, st => solveSt rest (sum + a) (solveSt rest sum st)

/-- `cmp` returns `y - x`, so `qsort(arr, len, sizeof(int), cmp)` sorts the
array in descending (non-increasing) order; the resulting value sequence is
modelled by insertion sort under `y ≤ x`. -/
def sortDesc (arr : List Int) : List Int :=
  List.insertionSort (fun x y => y ≤ x) arr

/-- `printSubSetSum` from subset_sums.c: it first sorts the caller's array
in place with `qsort(..., cmp)` (descending), then runs
`solve(0, arr, len, 0)` against the globals. The returned pair is the
array contents after the call and the new global state. -/
def printSubSetSum (arr : List Int) (st : EnumState) : List Int × EnumState :=
  (sortDesc arr, solveSt (sortDesc arr) 0 st)

/-- Spec-side formula (for comparison with `solve`): the sum of `arr[i]`
over exactly those indices `i` whose bit `N-1-i` in the binary
representation of `k` is set, where `N = arr.length`. -/
def subsetSumAtMask (arr : List Int) (k : Nat) : Int :=
  (((List.range arr.length).filter
      (fun i => Nat.testBit k (arr.length - 1 - i))).map
    (fun i => arr.getD i 0)).sum

/-- Recursive form of `subsetSumAtMask`: the head of the list owns the
highest bit position (`rest.length`). -/
def bitsSum : List Int → Nat → Int
  | [], _ => 0
  | a :: rest, k => (if Nat.testBit k rest.length then a else 0) + bitsSum rest k

theorem solve_length (arr : List Int) (sum : Int) :
    (solve arr sum).length = 2 ^ arr.length := by
  induction arr generalizing sum with
  | nil => rfl
  | cons a rest ih =>
    simp [solve, ih, List.length_append, pow_succ]
    ring

theorem solveSt_eq (arr : List Int) (sum : Int) (st : EnumState) :
    solveSt arr sum st =
      ⟨st.pos + (solve arr sum).length,
       st.writes ++ (solve arr sum).enumFrom st.pos⟩ := by
  induction arr generalizing sum st with
  | nil => simp [solveSt, solve, List.enumFrom]
  | cons a rest ih =>
    simp only [solveSt, solve, ih, List.enumFrom_append, List.length_append,
      List.append_assoc]
    congr 1
    omega

theorem bitsSum_zero (l : List Int) : bitsSum l 0 = 0 := by
  induction l with
  | nil => rfl
  | cons a rest ih => simp [bitsSum, Nat.zero_testBit, ih]

theorem bitsSum_add_two_pow (l : List Int) (m x : Nat) (h : l.length ≤ m) :
    bitsSum l (2 ^ m + x) = bitsSum l x := by
  induction l with
  | nil => rfl
  | cons a rest ih =>
    have h1 : rest.length < m := by simp [List.length_cons] at h; omega
    rw [bitsSum, bitsSum, Nat.testBit_two_pow_add_gt h1,
      ih (by simp [List.length_cons] at h; omega)]

theorem bitsSum_ones (l : List Int) (n : Nat) (h : l.length ≤ n) :
    bitsSum l (2 ^ n - 1) = l.sum := by
  induction l with
  | nil => rfl
  | cons a rest ih =>
    have h1 : rest.length < n := by simp [List.length_cons] at h; omega
    rw [bitsSum, Nat.testBit_two_pow_sub_one,
      ih (by omega), List.sum_cons]
    simp [h1]

theorem subsetSumAtMask_eq_bitsSum (arr : List Int) (k : Nat) :
    subsetSumAtMask arr k = bitsSum arr k := by
  induction arr with
  | nil => rfl
  | cons a rest ih =>
    have hc1 : ((fun i => Nat.testBit k (rest.length + 1 - 1 - i)) ∘ Nat.succ)
        = (fun i => Nat.testBit k (rest.length - 1 - i)) := by
      funext i
      simp only [Function.comp_apply, Nat.succ_eq_add_one]
      congr 1
      omega
    have hc2 : ((fun i => (a :: rest).getD i 0) ∘ Nat.succ)
        = (fun i => rest.getD i 0) := by
      funext i
      simp only [Function.comp_apply, Nat.succ_eq_add_one, List.getD_cons_succ]
    have h0 : rest.length + 1 - 1 - 0 = rest.length := by omega
    rw [subsetSumAtMask, List.length_cons, List.range_succ_eq_map,
      List.filter_cons, List.filter_map, hc1, h0]
    by_cases hb : Nat.testBit k rest.length
    · simp only [hb, if_true, List.map_cons, List.getD_cons_zero,
        List.map_map, hc2, List.sum_cons, bitsSum]
      rw [← ih, subsetSumAtMask]
    · rw [Bool.not_eq_true] at hb
      simp only [hb, Bool.false_eq_true, if_false,
        List.map_map, hc2, bitsSum, zero_add]
      rw [← ih, subsetSumAtMask]

theorem solve_getD (arr : List Int) (sum : Int) (k : Nat)
    (hk : k < 2 ^ arr.length) :
    (solve arr sum).getD k 0 = sum + bitsSum arr k := by
  induction arr generalizing sum k with
  | nil =>
    have : k = 0 := by simpa using hk
    subst this
    simp [solve, bitsSum]
  | cons a rest ih =>
    by_cases h : k < 2 ^ rest.length
    · rw [solve, List.getD_append _ _ _ _ (by rw [solve_length]; exact h),
        ih sum k h]
      have hb : Nat.testBit k rest.length = false := Nat.testBit_lt_two_pow h
      simp [bitsSum, hb]
    · have h1 : 2 ^ rest.length ≤ k := le_of_not_lt h
      have h2 : k - 2 ^ rest.length < 2 ^ rest.length := by
        simp only [List.length_cons, pow_succ] at hk; omega
      rw [solve, List.getD_append_right _ _ _ _ (by rw [solve_length]; exact h1),
        solve_length, ih (sum + a) _ h2]
      have hk' : 2 ^ rest.length + (k - 2 ^ rest.length) = k := by omega
      have hb : Nat.testBit k rest.length = true := by
        rw [← hk', Nat.testBit_to_div_mod]
        have : (2 ^ rest.length + (k - 2 ^ rest.length)) / 2 ^ rest.length =
            1 + (k - 2 ^ rest.length) / 2 ^ rest.length := by
          rw [Nat.add_comm (2 ^ rest.length), Nat.add_div_right _
            (Nat.pos_pow_of_pos _ (by norm_num)), Nat.add_comm]
        rw [this, Nat.div_eq_of_lt h2]
        decide
      have hrest : bitsSum rest k = bitsSum rest (k - 2 ^ rest.length) := by
        conv_lhs => rw [← hk']
        rw [bitsSum_add_two_pow rest rest.length _ le_rfl]
      simp only [bitsSum, hb, if_true]
      rw [hrest]
      ring

/-- C1: invoked as `solve(0, arr, N, 0)` (here: on the whole list), the
enumerator appends exactly `2^N` sums to the result collection — the
emitted list has length `2^N` and the write cursor `pos` advances by
exactly `2^N`, with no deduplication of repeated sums. -/
theorem solve_emits_two_pow (arr : List Int) (sum : Int) (st : EnumState) :
    (solve arr sum).length = 2 ^ arr.length ∧
    (solveSt arr sum st).pos = st.pos + 2 ^ arr.length ∧
    (solveSt arr sum st).writes.length = st.writes.length + 2 ^ arr.length := by
  refine ⟨solve_length arr sum, ?_, ?_⟩ <;>
    simp [solveSt_eq, solve_length, List.enumFrom_length]

/-- C10: the recursion emits sums in the fixed exclude-then-include order:
the `k`-th emitted sum (0-based) is the sum of `arr[i]` over indices `i`
whose bit `N-1-i` of `k` is set; the first emitted sum is 0 and the last
is the sum of all elements. -/
theorem solve_emission_order (arr : List Int) (k : Nat)
    (hk : k < 2 ^ arr.length) :
    (solve arr 0).getD k 0 = subsetSumAtMask arr k ∧
    (solve arr 0).getD 0 0 = 0 ∧
    (solve arr 0).getD (2 ^ arr.length - 1) 0 = arr.sum := by
  refine ⟨?_, ?_, ?_⟩
  · rw [solve_getD arr 0 k hk, subsetSumAtMask_eq_bitsSum]
    ring
  · rw [solve_getD arr 0 0 (Nat.pos_pow_of_pos _ (by norm_num)),
      bitsSum_zero]
    ring
  · rw [solve_getD arr 0 _
      (by have := Nat.pos_pow_of_pos arr.length (show 0 < 2 by norm_num); omega),
      bitsSum_ones arr arr.length le_rfl]
    ring

theorem solve_emission_order_witness :
    3 < 2 ^ ([5, 2, 1] : List Int).length ∧
    ((solve [5, 2, 1] 0).getD 3 0 = subsetSumAtMask [5, 2, 1] 3 ∧
     (solve [5, 2, 1] 0).getD 0 0 = 0 ∧
     (solve [5, 2, 1] 0).getD (2 ^ ([5, 2, 1] : List Int).length - 1) 0 =
       ([5, 2, 1] : List Int).sum) :=
  ⟨by decide, solve_emission_order [5, 2, 1] 3 (by decide)⟩

theorem length_sortDesc (arr : List Int) : (sortDesc arr).length = arr.length :=
  List.length_insertionSort _ arr

theorem sorted_sortDesc (arr : List Int) :
    List.Sorted (fun x y => y ≤ x) (sortDesc arr) := by
  haveI : IsTotal Int (fun x y => y ≤ x) := ⟨fun a b => le_total b a⟩
  haveI : IsTrans Int (fun x y => y ≤ x) := ⟨fun a b c h1 h2 => le_trans h2 h1⟩
  exact List.sorted_insertionSort _ arr

theorem sortDesc_idem (arr : List Int) : sortDesc (sortDesc arr) = sortDesc arr :=
  List.Sorted.insertionSort_eq (sorted_sortDesc arr)

/-- C2: the code has no precondition check at all: for an input of length 7
(so `2^7 = 128 > 100` results) `printSubSetSum` silently runs to completion,
advancing `pos` past the capacity of `int sums[100]` and performing a store
at an index `≥ 100`, i.e. outside the buffer. -/
theorem printSubSetSum_overflows_capacity (arr : List Int)
    (h : arr.length = 7) :
    capacity < (printSubSetSum arr initState).2.pos ∧
    ∃ w ∈ (printSubSetSum arr initState).2.writes, capacity ≤ w.1 := by
  have hlen : (solve (sortDesc arr) 0).length = 128 := by
    rw [solve_length, length_sortDesc, h]
    norm_num
  have hpos : (printSubSetSum arr initState).2 =
      ⟨0 + (solve (sortDesc arr) 0).length,
       [] ++ (solve (sortDesc arr) 0).enumFrom 0⟩ := by
    rw [printSubSetSum, solveSt_eq]
    rfl
  constructor
  · rw [hpos]
    norm_num [hlen, capacity]
  · rw [hpos]
    have h100 : (100 : Nat) < (List.enumFrom 0 (solve (sortDesc arr) 0)).length := by
      rw [List.enumFrom_length, hlen]
      omega
    refine ⟨(List.enumFrom 0 (solve (sortDesc arr) 0)).get ⟨100, h100⟩, ?_, ?_⟩
    · simp only [List.nil_append]
      exact List.get_mem _ _ _
    · have hge := List.getElem_enumFrom (solve (sortDesc arr) 0) 0 100 h100
      simp only [List.get_eq_getElem, hge, capacity]
      omega

theorem printSubSetSum_overflows_capacity_witness :
    ([1, 2, 3, 4, 5, 6, 7] : List Int).length = 7 ∧
    (capacity < (printSubSetSum [1, 2, 3, 4, 5, 6, 7] initState).2.pos ∧
     ∃ w ∈ (printSubSetSum [1, 2, 3, 4, 5, 6, 7] initState).2.writes,
       capacity ≤ w.1) :=
  ⟨by decide, printSubSetSum_overflows_capacity [1, 2, 3, 4, 5, 6, 7] (by decide)⟩

/-- C4 counterexample: the input sequence is NOT left unchanged —
`printSubSetSum` first sorts the caller's array in place into descending
order, so the array `{1, 2}` holds `{2, 1}` after the call. -/
theorem printSubSetSum_mutates_input :
    ¬ ((printSubSetSum [1, 2] initState).1 = [1, 2]) := by decide

/-- C4 amended: after one call to `printSubSetSum` the array holds the same
elements as before, rearranged into descending (non-increasing) order — a
permutation of the input, not necessarily equal to it. -/
theorem printSubSetSum_permutes_input (arr : List Int) (st : EnumState) :
    (printSubSetSum arr st).1 = sortDesc arr ∧
    ((printSubSetSum arr st).1).Perm arr ∧
    List.Sorted (fun x y => y ≤ x) ((printSubSetSum arr st).1) :=
  ⟨rfl, List.perm_insertionSort _ arr, sorted_sortDesc arr⟩

/-- C5: the sums are NOT returned in non-decreasing order: for the input
`{1, 1, 1}` the code (descending in-place sort, then exclude-first
recursion) writes `0, 1, 1, 2, 1, 2, 2, 3` into `sums`, which is not
sorted; nothing re-sorts the result buffer before it is displayed. -/
theorem printSubSetSum_output_not_sorted :
    ¬ List.Sorted (fun x y => x ≤ y)
      (((printSubSetSum [1, 1, 1] initState).2.writes).map Prod.snd) := by
  decide

/-- C9 counterexample: the globals `pos` and `sums` persist across calls:
running `printSubSetSum` a second time (on the array as the first call left
it, as in the C program) does not reproduce the first call's result state —
`pos` has advanced again and the buffer now holds both rounds of writes. -/
theorem printSubSetSum_second_call_differs :
    ((printSubSetSum (printSubSetSum [1] initState).1
        (printSubSetSum [1] initState).2).2).pos ≠
      ((printSubSetSum [1] initState).2).pos ∧
    (((printSubSetSum (printSubSetSum [1] initState).1
        (printSubSetSum [1] initState).2).2).writes).map Prod.snd ≠
      (((printSubSetSum [1] initState).2).writes).map Prod.snd := by
  decide

/-- C9 amended: the enumerator is deterministic but stateful: a second call
on the same (now descending-sorted) array appends exactly the same value
sequence `solve (sortDesc arr) 0` as the first call did, but at offset
`2^N` because the global cursor `pos` persists; the array itself is
unchanged by the second call. -/
theorem printSubSetSum_twice (arr : List Int) (st : EnumState) :
    (printSubSetSum (printSubSetSum arr st).1 (printSubSetSum arr st).2).1 =
      (printSubSetSum arr st).1 ∧
    (printSubSetSum arr st).2.pos = st.pos + 2 ^ arr.length ∧
    (printSubSetSum (printSubSetSum arr st).1 (printSubSetSum arr st).2).2.pos =
      st.pos + 2 ^ arr.length + 2 ^ arr.length ∧
    (printSubSetSum arr st).2.writes =
      st.writes ++ (solve (sortDesc arr) 0).enumFrom st.pos ∧
    (printSubSetSum (printSubSetSum arr st).1 (printSubSetSum arr st).2).2.writes =
      (printSubSetSum arr st).2.writes ++
        (solve (sortDesc arr) 0).enumFrom (st.pos + 2 ^ arr.length) := by
  simp [printSubSetSum, sortDesc_idem, solveSt_eq, solve_length,
    length_sortDesc]

/-! ## 33.Search_in_Rotated_Sorted_Array.c

```c
int findMin(int nums[], int len, int key) {
    int start = 0;
    int end = len - 1;
    while (start <= end)  {
        int mid = start + (end - start) / 2;
        if (nums[mid] == key) {
            return mid;
        } else if (nums[mid] >= nums[start]) {
            if (key >= nums[start] && key < nums[mid]) { end = mid - 1; }
            else { start = mid + 1; }
        } else {
            if (key <= nums[end] && key > nums[mid]) { start = mid + 1; }
            else { end = mid - 1; }
        }
    }
    return -1;
}
```

The `while` loop becomes a fuel-indexed recursion (`none` = fuel ran out;
the termination theorem below shows interval-sized fuel always suffices).
The loop variable `end` is named `stop` (`end` is a Lean keyword). The C
division `(end - start) / 2` truncates toward zero; in every state the
loop can reach, `end - start ≥ 0`, where truncation and Lean's Euclidean
`Int` division agree. -/
def findMinFuel (nums : List Int) (key : Int) :
    Nat → Int → Int → Option Int
  | 0, _, _ => none
  | fuel + 1, start, stop =>
    if start ≤ stop then
      let mid := start + (stop - start) / 2
      if getI nums mid = key then some mid
      else if getI nums start ≤ getI nums mid then
        if getI nums start ≤ key ∧ key < getI nums mid then
          findMinFuel nums key fuel start (mid - 1)
        else
          findMinFuel nums key fuel (mid + 1) stop
      else
        if key ≤ getI nums stop ∧ getI nums mid < key then
          findMinFuel nums key fuel (mid + 1) stop
        else
          findMinFuel nums key fuel start (mid - 1)
    else some (-1)

/-- `findMin(nums, len, key)`: the loop starting from
`start = 0, end = len - 1`, with enough fuel to finish. -/
def findMin (nums : List Int) (key : Int) : Int :=
  (findMinFuel nums key (nums.length + 1) 0 ((nums.length : Int) - 1)).getD (-1)

theorem mid_bounds {start stop : Int} (h : start ≤ stop) :
    start ≤ start + (stop - start) / 2 ∧ start + (stop - start) / 2 ≤ stop := by
  have h1 : 0 ≤ (stop - start) / 2 :=
    Int.ediv_nonneg (by omega) (by norm_num)
  have h2 : (stop - start) / 2 ≤ stop - start :=
    Int.ediv_le_self _ (by omega)
  omega

theorem findMinFuel_isSome (nums : List Int) (key : Int) :
    ∀ (fuel : Nat) (start stop : Int),
      (stop - start + 1).toNat < fuel →
      (findMinFuel nums key fuel start stop).isSome = true := by
  intro fuel
  induction fuel with
  | zero => intro start stop h; omega
  | succ fuel ih =>
    intro start stop h
    simp only [findMinFuel]
    split_ifs with hg h1 h2 h3 h4
    · rfl
    · exact ih start (start + (stop - start) / 2 - 1)
        (by have := mid_bounds hg; omega)
    · exact ih (start + (stop - start) / 2 + 1) stop
        (by have := mid_bounds hg; omega)
    · exact ih (start + (stop - start) / 2 + 1) stop
        (by have := mid_bounds hg; omega)
    · exact ih start (start + (stop - start) / 2 - 1)
        (by have := mid_bounds hg; omega)
    · rfl

theorem findMinFuel_sound (nums : List Int) (key : Int) :
    ∀ (fuel : Nat) (start stop r : Int),
      0 ≤ start → stop < (nums.length : Int) →
      findMinFuel nums key fuel start stop = some r →
      r = -1 ∨ (0 ≤ r ∧ r < (nums.length : Int) ∧ getI nums r = key) := by
  intro fuel
  induction fuel with
  | zero => intro start stop r _ _ h; simp [findMinFuel] at h
  | succ fuel ih =>
    intro start stop r hs he h
    simp only [findMinFuel] at h
    split_ifs at h with hg h1 h2 h3 h4
    · right
      have hmb := mid_bounds hg
      have hr : start + (stop - start) / 2 = r := Option.some_inj.mp h
      subst hr
      exact ⟨by omega, by omega, h1⟩
    · exact ih start (start + (stop - start) / 2 - 1) r hs
        (by have := mid_bounds hg; omega) h
    · exact ih (start + (stop - start) / 2 + 1) stop r
        (by have := mid_bounds hg; omega) he h
    · exact ih (start + (stop - start) / 2 + 1) stop r
        (by have := mid_bounds hg; omega) he h
    · exact ih start (start + (stop - start) / 2 - 1) r hs
        (by have := mid_bounds hg; omega) h
    · left
      exact (Option.some_inj.mp h).symm

/-- Index-level description of "a rotation of a strictly ascending array":
there is a pivot `p` (`0 ≤ p ≤ len`) such that values ascend strictly on
indices `[0, p)`, ascend strictly on `[p, len)`, and every value at an
index `≥ p` lies strictly below every value at an index `< p`. -/
def RotatedAscending (A : List Int) (p : Int) : Prop :=
  0 ≤ p ∧ p ≤ (A.length : Int) ∧
  (∀ i j : Int, 0 ≤ i → i < j → j < p → getI A i < getI A j) ∧
  (∀ i j : Int, p ≤ i → i < j → j < (A.length : Int) → getI A i < getI A j) ∧
  (∀ i j : Int, 0 ≤ i → i < p → p ≤ j → j < (A.length : Int) →
    getI A j < getI A i)

theorem rotate_rotatedAscending (b : List Int) (r : Nat)
    (hb : b.Pairwise (fun x y => x < y)) :
    ∃ p : Int, RotatedAscending (b.rotate r) p := by
  rcases Nat.eq_zero_or_pos b.length with h0 | hpos
  · refine ⟨0, le_refl 0, by rw [List.length_rotate]; omega, ?_, ?_, ?_⟩
    · intro i j hi hij hj
      omega
    · intro i j hi hij hj
      rw [List.length_rotate] at hj
      omega
    · intro i j hi hip hpj hj
      omega
  · have hbi : ∀ i j : Nat, i < j → j < b.length →
        b.getD i 0 < b.getD j 0 := by
      intro i j hij hj
      rw [List.getD_eq_getElem _ _ (by omega), List.getD_eq_getElem _ _ hj]
      exact List.pairwise_iff_getElem.mp hb i j (by omega) hj hij
    have hr' : r % b.length < b.length := Nat.mod_lt _ hpos
    have hA : b.rotate r = b.drop (r % b.length) ++ b.take (r % b.length) := by
      rw [← List.rotate_mod, List.rotate_eq_drop_append_take (le_of_lt hr')]
    have hdl : (b.drop (r % b.length)).length = b.length - r % b.length := by
      simp [List.length_drop]
    have hlow : ∀ i : Nat, i < b.length - r % b.length →
        (b.rotate r).getD i 0 = b.getD (r % b.length + i) 0 := by
      intro i hi
      have hidx : i < (b.drop (r % b.length)).length := by omega
      have hidx2 : r % b.length + i < b.length := by omega
      rw [hA, List.getD_append _ _ _ _ hidx, List.getD_eq_getElem _ _ hidx,
        List.getElem_drop, ← List.getD_eq_getElem _ _ hidx2]
    have hhigh : ∀ i : Nat, b.length - r % b.length ≤ i → i < b.length →
        (b.rotate r).getD i 0 =
          b.getD (i - (b.length - r % b.length)) 0 := by
      intro i hi1 hi2
      have hidx : (b.drop (r % b.length)).length ≤ i := by omega
      have hidx2 : i - (b.length - r % b.length) <
          (b.take (r % b.length)).length := by
        rw [List.length_take]
        omega
      have hidx3 : i - (b.length - r % b.length) < b.length := by omega
      rw [hA, List.getD_append_right _ _ _ _ hidx, hdl,
        List.getD_eq_getElem _ _ hidx2, List.getElem_take,
        ← List.getD_eq_getElem _ _ hidx3]
    refine ⟨((b.length - r % b.length : Nat) : Int), by omega, ?_, ?_, ?_, ?_⟩
    · rw [List.length_rotate]
      omega
    · intro i j hi hij hjp
      rw [getI, getI, hlow i.toNat (by omega), hlow j.toNat (by omega)]
      exact hbi _ _ (by omega) (by omega)
    · intro i j hi hij hj
      rw [List.length_rotate] at hj
      rw [getI, getI, hhigh i.toNat (by omega) (by omega),
        hhigh j.toNat (by omega) (by omega)]
      exact hbi _ _ (by omega) (by omega)
    · intro i j hi hip hpj hj
      rw [List.length_rotate] at hj
      rw [getI, getI, hlow i.toNat (by omega),
        hhigh j.toNat (by omega) (by omega)]
      exact hbi _ _ (by omega) (by omega)

theorem findMinFuel_complete (A : List Int) (p : Int) (key : Int)
    (hA : RotatedAscending A p) :
    ∀ (fuel : Nat) (start stop j : Int),
      (stop - start + 1).toNat < fuel →
      0 ≤ start → stop < (A.length : Int) →
      start ≤ j → j ≤ stop → getI A j = key →
      ∃ i : Int, findMinFuel A key fuel start stop = some i ∧
        0 ≤ i ∧ i < (A.length : Int) ∧ getI A i = key := by
  obtain ⟨hp0, hpn, h1, h2, h3⟩ := hA
  intro fuel
  induction fuel with
  | zero =>
    intro start stop j hf
    omega
  | succ fuel ih =>
    intro start stop j hf hs he hj1 hj2 hjk
    have hg : start ≤ stop := by omega
    have hmb := mid_bounds hg
    simp only [findMinFuel]
    set mid := start + (stop - start) / 2 with hmd
    rw [if_pos hg]
    by_cases hmid : getI A mid = key
    · rw [if_pos hmid]
      exact ⟨mid, rfl, by omega, by omega, hmid⟩
    · rw [if_neg hmid]
      have hjne : j ≠ mid := fun hh => hmid (hh ▸ hjk)
      by_cases hcmp : getI A start ≤ getI A mid
      · rw [if_pos hcmp]
        have hpart : mid < p ∨ p ≤ start := by
          by_contra hc
          push_neg at hc
          exact absurd hcmp (not_le.mpr (h3 start mid hs hc.2 hc.1 (by omega)))
        by_cases hin : getI A start ≤ key ∧ key < getI A mid
        · -- left half sorted, key strictly inside [A[start], A[mid]): go left
          rw [if_pos hin]
          have hjlt : j < mid := by
            rcases lt_or_gt_of_ne hjne with hlt | hgt
            · exact hlt
            · exfalso
              rcases hpart with hp1 | hp2
              · rcases lt_or_le j p with hjp | hpj
                · have h4 := h1 mid j (by omega) hgt hjp
                  rw [hjk] at h4
                  exact lt_irrefl _ (lt_trans h4 hin.2)
                · have h4 := h3 start j hs (by omega) hpj (by omega)
                  rw [hjk] at h4
                  exact lt_irrefl _ (lt_of_le_of_lt hin.1 h4)
              · have h4 := h2 mid j (by omega) hgt (by omega)
                rw [hjk] at h4
                exact lt_irrefl _ (lt_trans h4 hin.2)
          exact ih start (mid - 1) j (by omega) hs (by omega) hj1 (by omega) hjk
        · -- left half sorted, key not in its value range: go right
          rw [if_neg hin]
          have hasc : ∀ x y : Int, start ≤ x → x < y → y ≤ mid →
              getI A x < getI A y := by
            intro x y hx hxy hy
            rcases hpart with hp1 | hp2
            · exact h1 x y (by omega) hxy (by omega)
            · exact h2 x y (by omega) hxy (by omega)
          have hjgt : mid < j := by
            rcases lt_or_gt_of_ne hjne with hlt | hgt
            · exfalso
              apply hin
              constructor
              · rcases eq_or_lt_of_le hj1 with he1 | hlt1
                · rw [he1]
                  exact le_of_eq hjk
                · have h4 := hasc start j le_rfl hlt1 (le_of_lt hlt)
                  rw [hjk] at h4
                  exact le_of_lt h4
              · have h4 := hasc j mid hj1 hlt le_rfl
                rw [hjk] at h4
                exact h4
            · exact hgt
          exact ih (mid + 1) stop j (by omega) (by omega) he (by omega) hj2 hjk
      · rw [if_neg hcmp]
        have hcmp' : getI A mid < getI A start := not_le.mp hcmp
        have hps : start < p := by
          by_contra hh
          push_neg at hh
          rcases eq_or_lt_of_le hmb.1 with he1 | hlt1
          · exact lt_irrefl _ (he1 ▸ hcmp')
          · exact lt_irrefl _ (lt_trans (h2 start mid hh hlt1 (by omega)) hcmp')
        have hpm : p ≤ mid := by
          by_contra hh
          push_neg at hh
          rcases eq_or_lt_of_le hmb.1 with he1 | hlt1
          · exact lt_irrefl _ (he1 ▸ hcmp')
          · exact lt_irrefl _ (lt_trans (h1 start mid hs hlt1 hh) hcmp')
        by_cases hin2 : key ≤ getI A stop ∧ getI A mid < key
        · -- right half sorted, key strictly inside (A[mid], A[stop]]: go right
          rw [if_pos hin2]
          have hjgt : mid < j := by
            rcases lt_or_gt_of_ne hjne with hlt | hgt
            · exfalso
              rcases lt_or_le j p with hjp | hpj
              · have h4 := h3 j stop (by omega) hjp (by omega) he
                rw [hjk] at h4
                exact lt_irrefl _ (lt_of_le_of_lt hin2.1 h4)
              · have h4 := h2 j mid hpj hlt (by omega)
                rw [hjk] at h4
                exact lt_irrefl _ (lt_trans h4 hin2.2)
            · exact hgt
          exact ih (mid + 1) stop j (by omega) (by omega) he (by omega) hj2 hjk
        · -- right half sorted, key not in its value range: go left
          rw [if_neg hin2]
          have hjlt : j < mid := by
            rcases lt_or_gt_of_ne hjne with hlt | hgt
            · exact hlt
            · exfalso
              apply hin2
              constructor
              · rcases eq_or_lt_of_le hj2 with he1 | hlt1
                · rw [← hjk, he1]
                · have h4 := h2 j stop (by omega) hlt1 he
                  rw [hjk] at h4
                  exact le_of_lt h4
              · have h4 := h2 mid j hpm hgt (by omega)
                rw [hjk] at h4
                exact h4
          exact ih start (mid - 1) j (by omega) hs (by omega) hj1 (by omega) hjk

/-- C3: for every array obtained by rotating a strictly ascending integer
array by any offset, and every key that occurs in it, `findMin` returns an
index `i ∈ [0, N)` whose element equals the key. -/
theorem findMin_correct (b : List Int) (r : Nat) (key : Int)
    (hsort : b.Pairwise (fun x y => x < y)) (hkey : key ∈ b.rotate r) :
    ∃ i : Nat, i < (b.rotate r).length ∧
      findMin (b.rotate r) key = (i : Int) ∧
      (b.rotate r).getD i 0 = key := by
  obtain ⟨p, hp⟩ := rotate_rotatedAscending b r hsort
  obtain ⟨jN, hjN, hjval⟩ := List.mem_iff_getElem.mp hkey
  have hgJ : getI (b.rotate r) (jN : Int) = key := by
    rw [getI, Int.toNat_natCast, List.getD_eq_getElem _ _ hjN]
    exact hjval
  obtain ⟨i, heq, hi0, hin, hik⟩ :=
    findMinFuel_complete (b.rotate r) p key hp ((b.rotate r).length + 1) 0
      (((b.rotate r).length : Int) - 1) (jN : Int)
      (by omega) le_rfl (by omega) (by omega) (by omega) hgJ
  refine ⟨i.toNat, by omega, ?_, ?_⟩
  · rw [findMin, heq, Option.getD_some, Int.toNat_of_nonneg hi0]
  · rw [← hik, getI]

theorem findMin_correct_witness :
    ([1, 3, 5] : List Int).Pairwise (fun x y => x < y) ∧
    (3 : Int) ∈ ([1, 3, 5] : List Int).rotate 2 ∧
    ∃ i : Nat, i < (([1, 3, 5] : List Int).rotate 2).length ∧
      findMin (([1, 3, 5] : List Int).rotate 2) 3 = (i : Int) ∧
      (([1, 3, 5] : List Int).rotate 2).getD i 0 = 3 :=
  ⟨by decide, by decide, findMin_correct [1, 3, 5] 2 3 (by decide) (by decide)⟩

/-- C8: `findMin` terminates on every input — no rotation precondition:
whenever the fuel exceeds the current interval size `end - start + 1`
(each iteration strictly shrinks the interval, consuming one unit of
fuel), the loop completes with a result; in particular the top-level call
with fuel `len + 1` always produces the value `findMin` returns. -/
theorem findMin_terminates (nums : List Int) (key : Int) (fuel : Nat)
    (start stop : Int) (hfuel : (stop - start + 1).toNat < fuel) :
    (findMinFuel nums key fuel start stop).isSome = true ∧
    findMinFuel nums key (nums.length + 1) 0 ((nums.length : Int) - 1) =
      some (findMin nums key) := by
  refine ⟨findMinFuel_isSome nums key fuel start stop hfuel, ?_⟩
  have h := findMinFuel_isSome nums key (nums.length + 1) 0
    ((nums.length : Int) - 1) (by omega)
  obtain ⟨r, hr⟩ := Option.isSome_iff_exists.mp h
  rw [findMin, hr, Option.getD_some]

theorem findMin_terminates_witness :
    ((2 : Int) - 0 + 1).toNat < 4 ∧
    ((findMinFuel [5, 1, 3] 3 4 0 2).isSome = true ∧
     findMinFuel [5, 1, 3] 3 (([5, 1, 3] : List Int).length + 1) 0
       ((([5, 1, 3] : List Int).length : Int) - 1) =
       some (findMin [5, 1, 3] 3)) :=
  ⟨by decide, findMin_terminates [5, 1, 3] 3 4 0 2 (by decide)⟩

/-! ## 34.Find_First_and_Last_Position_of_Element_in_Sorted_Array.c

```c
int findBound (int nums[], int len, int key, bool isFirst)
{
    int begin = 0, end = len - 1;
    while (begin <= end) {
        int mid = (begin + end) / 2;
        if (nums[mid] == key) {
            if (isFirst) {
                if (mid == begin || nums[mid - 1] != key) { return mid; }
                end = mid - 1;
            } else {
                if (mid == end || nums[mid + 1] != key) { return mid; }
                begin = mid + 1;
            }
        } else if (nums[mid] > key) {
            end = mid - 1;
        } else {
            begin = mid + 1;
        }
    }
    return -1;
}
```

Fuel-indexed like `findMinFuel`; `end` is again renamed `stop`. In every
reachable state `begin ≥ 0`, so C's truncating `(begin + end) / 2` and
Lean's Euclidean division agree. -/
def findBoundFuel (nums : List Int) (key : Int) (isFirst : Bool) :
    Nat → Int → Int → Option Int
  | 0, _, _ => none
  | fuel + 1, begin_, stop =>
    if begin_ ≤ stop then
      let mid := (begin_ + stop) / 2
      if getI nums mid = key then
        if isFirst then
          if mid = begin_ ∨ getI nums (mid - 1) ≠ key then some mid
          else findBoundFuel nums key isFirst fuel begin_ (mid - 1)
        else
          if mid = stop ∨ getI nums (mid + 1) ≠ key then some mid
          else findBoundFuel nums key isFirst fuel (mid + 1) stop
      else if getI nums mid > key then
        findBoundFuel nums key isFirst fuel begin_ (mid - 1)
      else
        findBoundFuel nums key isFirst fuel (mid + 1) stop
    else some (-1)

/-- `findBound(nums, len, key, isFirst)` started from
`begin = 0, end = len - 1`, with enough fuel to finish. -/
def findBound (nums : List Int) (key : Int) (isFirst : Bool) : Int :=
  (findBoundFuel nums key isFirst (nums.length + 1) 0
    ((nums.length : Int) - 1)).getD (-1)

theorem mid2_bounds {begin_ stop : Int} (h : begin_ ≤ stop) :
    begin_ ≤ (begin_ + stop) / 2 ∧ (begin_ + stop) / 2 ≤ stop := by
  constructor
  · have h1 : 2 * begin_ ≤ begin_ + stop := by omega
    have h2 := Int.ediv_le_ediv (by norm_num : (0 : Int) < 2) h1
    rwa [Int.mul_ediv_cancel_left _ (by norm_num)] at h2
  · have h1 : begin_ + stop ≤ 2 * stop := by omega
    have h2 := Int.ediv_le_ediv (by norm_num : (0 : Int) < 2) h1
    rwa [Int.mul_ediv_cancel_left _ (by norm_num)] at h2

theorem findBoundFuel_isSome (nums : List Int) (key : Int) (isFirst : Bool) :
    ∀ (fuel : Nat) (begin_ stop : Int),
      (stop - begin_ + 1).toNat < fuel →
      (findBoundFuel nums key isFirst fuel begin_ stop).isSome = true := by
  intro fuel
  induction fuel with
  | zero => intro begin_ stop h; omega
  | succ fuel ih =>
    intro begin_ stop h
    simp only [findBoundFuel]
    by_cases hg : begin_ ≤ stop
    · rw [if_pos hg]
      have hmb := mid2_bounds hg
      by_cases hmid : getI nums ((begin_ + stop) / 2) = key
      · rw [if_pos hmid]
        cases isFirst with
        | true =>
          rw [if_pos rfl]
          by_cases hret : (begin_ + stop) / 2 = begin_ ∨
              getI nums ((begin_ + stop) / 2 - 1) ≠ key
          · rw [if_pos hret]
            rfl
          · rw [if_neg hret]
            exact ih begin_ ((begin_ + stop) / 2 - 1) (by omega)
        | false =>
          rw [if_neg Bool.false_ne_true]
          by_cases hret : (begin_ + stop) / 2 = stop ∨
              getI nums ((begin_ + stop) / 2 + 1) ≠ key
          · rw [if_pos hret]
            rfl
          · rw [if_neg hret]
            exact ih ((begin_ + stop) / 2 + 1) stop (by omega)
      · rw [if_neg hmid]
        by_cases hgt : getI nums ((begin_ + stop) / 2) > key
        · rw [if_pos hgt]
          exact ih begin_ ((begin_ + stop) / 2 - 1) (by omega)
        · rw [if_neg hgt]
          exact ih ((begin_ + stop) / 2 + 1) stop (by omega)
    · rw [if_neg hg]
      rfl

theorem findBoundFuel_sound (nums : List Int) (key : Int) (isFirst : Bool) :
    ∀ (fuel : Nat) (begin_ stop r : Int),
      0 ≤ begin_ → stop < (nums.length : Int) →
      findBoundFuel nums key isFirst fuel begin_ stop = some r →
      r = -1 ∨ (0 ≤ r ∧ r < (nums.length : Int) ∧ getI nums r = key) := by
  intro fuel
  induction fuel with
  | zero => intro begin_ stop r _ _ h; simp [findBoundFuel] at h
  | succ fuel ih =>
    intro begin_ stop r hb he h
    simp only [findBoundFuel] at h
    by_cases hg : begin_ ≤ stop
    · rw [if_pos hg] at h
      have hmb := mid2_bounds hg
      by_cases hmid : getI nums ((begin_ + stop) / 2) = key
      · rw [if_pos hmid] at h
        cases isFirst with
        | true =>
          rw [if_pos rfl] at h
          by_cases hret : (begin_ + stop) / 2 = begin_ ∨
              getI nums ((begin_ + stop) / 2 - 1) ≠ key
          · rw [if_pos hret] at h
            have hr := Option.some_inj.mp h
            subst hr
            exact Or.inr ⟨by omega, by omega, hmid⟩
          · rw [if_neg hret] at h
            exact ih begin_ ((begin_ + stop) / 2 - 1) r hb (by omega) h
        | false =>
          rw [if_neg Bool.false_ne_true] at h
          by_cases hret : (begin_ + stop) / 2 = stop ∨
              getI nums ((begin_ + stop) / 2 + 1) ≠ key
          · rw [if_pos hret] at h
            have hr := Option.some_inj.mp h
            subst hr
            exact Or.inr ⟨by omega, by omega, hmid⟩
          · rw [if_neg hret] at h
            exact ih ((begin_ + stop) / 2 + 1) stop r (by omega) he h
      · rw [if_neg hmid] at h
        by_cases hgt : getI nums ((begin_ + stop) / 2) > key
        · rw [if_pos hgt] at h
          exact ih begin_ ((begin_ + stop) / 2 - 1) r hb (by omega) h
        · rw [if_neg hgt] at h
          exact ih ((begin_ + stop) / 2 + 1) stop r (by omega) he h
    · rw [if_neg hg] at h
      exact Or.inl (Option.some_inj.mp h).symm

/-- A plainly sorted (non-decreasing) array, read through `getI`. -/
theorem pairwise_le_getI (A : List Int)
    (h : A.Pairwise (fun x y => x ≤ y)) :
    ∀ i j : Int, 0 ≤ i → i ≤ j → j < (A.length : Int) →
      getI A i ≤ getI A j := by
  intro i j hi hij hj
  rcases eq_or_lt_of_le hij with he | hlt
  · rw [he]
  · rw [getI, getI, List.getD_eq_getElem _ _ (by omega : i.toNat < A.length),
      List.getD_eq_getElem _ _ (by omega : j.toNat < A.length)]
    exact List.pairwise_iff_getElem.mp h i.toNat j.toNat (by omega) (by omega)
      (by omega)

theorem findBoundFuel_first (A : List Int) (key : Int)
    (hsorted : ∀ i j : Int, 0 ≤ i → i ≤ j → j < (A.length : Int) →
      getI A i ≤ getI A j)
    (f : Int) (hf0 : 0 ≤ f) (hfn : f < (A.length : Int))
    (hfk : getI A f = key)
    (hfmin : ∀ t : Int, 0 ≤ t → t < f → getI A t ≠ key) :
    ∀ (fuel : Nat) (begin_ stop : Int),
      (stop - begin_ + 1).toNat < fuel →
      0 ≤ begin_ → stop < (A.length : Int) →
      begin_ ≤ f → f ≤ stop →
      findBoundFuel A key true fuel begin_ stop = some f := by
  intro fuel
  induction fuel with
  | zero => intro begin_ stop h; omega
  | succ fuel ih =>
    intro begin_ stop hfu hb he hbf hfs
    have hg : begin_ ≤ stop := le_trans hbf hfs
    have hmb := mid2_bounds hg
    simp only [findBoundFuel]
    set mid := (begin_ + stop) / 2 with hmd
    rw [if_pos hg]
    by_cases hmid : getI A mid = key
    · rw [if_pos hmid, if_pos trivial]
      by_cases hret : mid = begin_ ∨ getI A (mid - 1) ≠ key
      · rw [if_pos hret]
        have hfm : f ≤ mid := by
          by_contra hh
          push_neg at hh
          exact hfmin mid (by omega) hh hmid
        have hmf : mid ≤ f := by
          rcases hret with hret1 | hret2
          · omega
          · by_contra hh
            push_neg at hh
            apply hret2
            have hle1 : getI A f ≤ getI A (mid - 1) :=
              hsorted f (mid - 1) hf0 (by omega) (by omega)
            have hle2 : getI A (mid - 1) ≤ getI A mid :=
              hsorted (mid - 1) mid (by omega) (by omega) (by omega)
            rw [hfk] at hle1
            rw [hmid] at hle2
            exact le_antisymm hle2 hle1
        rw [le_antisymm hmf hfm]
      · rw [if_neg hret]
        push_neg at hret
        have hf2 : f ≤ mid - 1 := by
          by_contra hh
          push_neg at hh
          exact hfmin (mid - 1) (by omega) hh hret.2
        exact ih begin_ (mid - 1) (by omega) hb (by omega) hbf hf2
    · rw [if_neg hmid]
      by_cases hgt : getI A mid > key
      · rw [if_pos hgt]
        have hf2 : f ≤ mid - 1 := by
          by_contra hh
          push_neg at hh
          have hne : f ≠ mid := fun hh2 => hmid (hh2 ▸ hfk)
          have hle := hsorted mid f (by omega) (by omega) hfn
          rw [hfk] at hle
          exact absurd hgt (not_lt.mpr hle)
        exact ih begin_ (mid - 1) (by omega) hb (by omega) hbf hf2
      · rw [if_neg hgt]
        have hf2 : mid + 1 ≤ f := by
          by_contra hh
          push_neg at hh
          have hne : f ≠ mid := fun hh2 => hmid (hh2 ▸ hfk)
          have hle := hsorted f mid hf0 (by omega) (by omega)
          rw [hfk] at hle
          exact hmid (le_antisymm (not_lt.mp hgt) hle)
        exact ih (mid + 1) stop (by omega) (by omega) he hf2 hfs

theorem findBoundFuel_last (A : List Int) (key : Int)
    (hsorted : ∀ i j : Int, 0 ≤ i → i ≤ j → j < (A.length : Int) →
      getI A i ≤ getI A j)
    (l : Int) (hl0 : 0 ≤ l) (hln : l < (A.length : Int))
    (hlk : getI A l = key)
    (hlmax : ∀ t : Int, l < t → t < (A.length : Int) → getI A t ≠ key) :
    ∀ (fuel : Nat) (begin_ stop : Int),
      (stop - begin_ + 1).toNat < fuel →
      0 ≤ begin_ → stop < (A.length : Int) →
      begin_ ≤ l → l ≤ stop →
      findBoundFuel A key false fuel begin_ stop = some l := by
  intro fuel
  induction fuel with
  | zero => intro begin_ stop h; omega
  | succ fuel ih =>
    intro begin_ stop hfu hb he hbl hls
    have hg : begin_ ≤ stop := le_trans hbl hls
    have hmb := mid2_bounds hg
    simp only [findBoundFuel]
    set mid := (begin_ + stop) / 2 with hmd
    rw [if_pos hg]
    by_cases hmid : getI A mid = key
    · rw [if_pos hmid, if_neg Bool.false_ne_true]
      by_cases hret : mid = stop ∨ getI A (mid + 1) ≠ key
      · rw [if_pos hret]
        have hml : mid ≤ l := by
          by_contra hh
          push_neg at hh
          exact hlmax mid hh (by omega) hmid
        have hlm : l ≤ mid := by
          rcases hret with hret1 | hret2
          · omega
          · by_contra hh
            push_neg at hh
            apply hret2
            have hle1 : getI A mid ≤ getI A (mid + 1) :=
              hsorted mid (mid + 1) (by omega) (by omega) (by omega)
            have hle2 : getI A (mid + 1) ≤ getI A l :=
              hsorted (mid + 1) l (by omega) (by omega) hln
            rw [hmid] at hle1
            rw [hlk] at hle2
            exact le_antisymm hle2 hle1
        rw [le_antisymm hlm hml]
      · rw [if_neg hret]
        push_neg at hret
        have hl2 : mid + 1 ≤ l := by
          by_contra hh
          push_neg at hh
          exact hlmax (mid + 1) (by omega) (by omega) hret.2
        exact ih (mid + 1) stop (by omega) (by omega) he hl2 hls
    · rw [if_neg hmid]
      by_cases hgt : getI A mid > key
      · rw [if_pos hgt]
        have hl2 : l ≤ mid - 1 := by
          by_contra hh
          push_neg at hh
          have hne : l ≠ mid := fun hh2 => hmid (hh2 ▸ hlk)
          have hle := hsorted mid l (by omega) (by omega) hln
          rw [hlk] at hle
          exact absurd hgt (not_lt.mpr hle)
        exact ih begin_ (mid - 1) (by omega) hb (by omega) hbl hl2
      · rw [if_neg hgt]
        have hl2 : mid + 1 ≤ l := by
          by_contra hh
          push_neg at hh
          have hne : l ≠ mid := fun hh2 => hmid (hh2 ▸ hlk)
          have hle := hsorted l mid hl0 (by omega) (by omega)
          rw [hlk] at hle
          exact hmid (le_antisymm (not_lt.mp hgt) hle)
        exact ih (mid + 1) stop (by omega) (by omega) he hl2 hls

theorem exists_first_occ (A : List Int) (v : Int) (hv : v ∈ A) :
    ∃ f : Nat, f < A.length ∧ A.getD f 0 = v ∧
      ∀ t : Nat, t < f → A.getD t 0 ≠ v := by
  obtain ⟨j, hj, hjv⟩ := List.mem_iff_getElem.mp hv
  have hP : ∃ t : Nat, t < A.length ∧ A.getD t 0 = v :=
    ⟨j, hj, by rw [List.getD_eq_getElem _ _ hj]; exact hjv⟩
  refine ⟨Nat.find hP, (Nat.find_spec hP).1, (Nat.find_spec hP).2, ?_⟩
  intro t ht hcontra
  exact Nat.find_min hP ht ⟨lt_trans ht (Nat.find_spec hP).1, hcontra⟩

theorem exists_last_occ (A : List Int) (v : Int) (hv : v ∈ A) :
    ∃ l : Nat, l < A.length ∧ A.getD l 0 = v ∧
      ∀ t : Nat, l < t → t < A.length → A.getD t 0 ≠ v := by
  obtain ⟨j, hj, hjv⟩ := List.mem_iff_getElem.mp hv
  have hPj : A.getD j 0 = v := by
    rw [List.getD_eq_getElem _ _ hj]
    exact hjv
  refine ⟨Nat.findGreatest (fun t => A.getD t 0 = v) (A.length - 1), ?_, ?_, ?_⟩
  · have hle : Nat.findGreatest (fun t => A.getD t 0 = v) (A.length - 1) ≤
        A.length - 1 :=
      @Nat.findGreatest_le (fun t => A.getD t 0 = v) (fun t => inferInstance)
        (A.length - 1)
    omega
  · exact @Nat.findGreatest_spec j (fun t => A.getD t 0 = v)
      (fun t => inferInstance) (A.length - 1) (by omega) hPj
  · intro t hlt htn
    exact Nat.findGreatest_is_greatest hlt (by omega)

/-- C6: on a plainly sorted array containing the value `v`, the two
`findBound` calls return indices `f ≤ l` and every index between them
(inclusive) holds `v`. -/
theorem findBound_first_le_last (A : List Int) (v : Int)
    (hsort : A.Pairwise (fun x y => x ≤ y)) (hv : v ∈ A) :
    ∃ f l : Nat, findBound A v true = (f : Int) ∧
      findBound A v false = (l : Int) ∧ f ≤ l ∧
      ∀ i : Nat, f ≤ i → i ≤ l → A.getD i 0 = v := by
  have hs := pairwise_le_getI A hsort
  obtain ⟨fN, hfN, hfv, hfmin⟩ := exists_first_occ A v hv
  obtain ⟨lN, hlN, hlv, hlmax⟩ := exists_last_occ A v hv
  have hfI : getI A (fN : Int) = v := by
    rw [getI, Int.toNat_natCast]
    exact hfv
  have hlI : getI A (lN : Int) = v := by
    rw [getI, Int.toNat_natCast]
    exact hlv
  have hfminI : ∀ t : Int, 0 ≤ t → t < (fN : Int) → getI A t ≠ v := by
    intro t ht1 ht2
    rw [getI]
    exact hfmin t.toNat (by omega)
  have hlmaxI : ∀ t : Int, (lN : Int) < t → t < (A.length : Int) →
      getI A t ≠ v := by
    intro t ht1 ht2
    rw [getI]
    exact hlmax t.toNat (by omega) (by omega)
  have heq1 := findBoundFuel_first A v hs (fN : Int) (by omega) (by omega)
    hfI hfminI (A.length + 1) 0 ((A.length : Int) - 1) (by omega) le_rfl
    (by omega) (by omega) (by omega)
  have heq2 := findBoundFuel_last A v hs (lN : Int) (by omega) (by omega)
    hlI hlmaxI (A.length + 1) 0 ((A.length : Int) - 1) (by omega) le_rfl
    (by omega) (by omega) (by omega)
  have hfl : fN ≤ lN := by
    by_contra hh
    push_neg at hh
    exact hfmin lN hh hlv
  refine ⟨fN, lN, ?_, ?_, hfl, ?_⟩
  · rw [findBound, heq1, Option.getD_some]
  · rw [findBound, heq2, Option.getD_some]
  · intro i hi1 hi2
    have hle1 : getI A (fN : Int) ≤ getI A (i : Int) :=
      hs _ _ (by omega) (by omega) (by omega)
    have hle2 : getI A (i : Int) ≤ getI A (lN : Int) :=
      hs _ _ (by omega) (by omega) (by omega)
    rw [hfI] at hle1
    rw [hlI] at hle2
    have hiv : getI A (i : Int) = v := le_antisymm hle2 hle1
    rw [getI, Int.toNat_natCast] at hiv
    exact hiv

theorem findBound_first_le_last_witness :
    ([1, 2, 2, 3] : List Int).Pairwise (fun x y => x ≤ y) ∧
    (2 : Int) ∈ ([1, 2, 2, 3] : List Int) ∧
    ∃ f l : Nat, findBound [1, 2, 2, 3] 2 true = (f : Int) ∧
      findBound [1, 2, 2, 3] 2 false = (l : Int) ∧ f ≤ l ∧
      ∀ i : Nat, f ≤ i → i ≤ l → ([1, 2, 2, 3] : List Int).getD i 0 = 2 :=
  ⟨by decide, by decide,
   findBound_first_le_last [1, 2, 2, 3] 2 (by decide) (by decide)⟩

/-- C7: on valid inputs (a rotation of a strictly ascending array for
`findMin`; a plainly sorted array for `findBound`), the sentinel `-1` is
returned exactly when the key is absent: if the key occurs nowhere the
routines return `-1`, and `-1` is returned only in that case. -/
theorem sentinel_iff_absent :
    (∀ (b : List Int) (r : Nat) (key : Int),
      b.Pairwise (fun x y => x < y) →
      ((key ∉ b.rotate r → findMin (b.rotate r) key = -1) ∧
       (findMin (b.rotate r) key = -1 → key ∉ b.rotate r))) ∧
    (∀ (A : List Int) (v : Int), A.Pairwise (fun x y => x ≤ y) →
      ((v ∉ A → findBound A v true = -1 ∧ findBound A v false = -1) ∧
       (findBound A v true = -1 → v ∉ A) ∧
       (findBound A v false = -1 → v ∉ A))) := by
  constructor
  · intro b r key hsort
    constructor
    · intro habs
      have hsome := findMinFuel_isSome (b.rotate r) key
        ((b.rotate r).length + 1) 0 (((b.rotate r).length : Int) - 1)
        (by omega)
      obtain ⟨res, hres⟩ := Option.isSome_iff_exists.mp hsome
      have hsound := findMinFuel_sound (b.rotate r) key _ 0 _ res le_rfl
        (by omega) hres
      rw [findMin, hres, Option.getD_some]
      rcases hsound with h1 | h2
      · exact h1
      · exfalso
        apply habs
        rw [getI] at h2
        have hmem : (b.rotate r).getD res.toNat 0 ∈ b.rotate r := by
          rw [List.getD_eq_getElem _ _ (by omega)]
          exact List.getElem_mem _
        rw [h2.2.2] at hmem
        exact hmem
    · intro heq hmem
      obtain ⟨p, hp⟩ := rotate_rotatedAscending b r hsort
      obtain ⟨jN, hjN, hjval⟩ := List.mem_iff_getElem.mp hmem
      have hgJ : getI (b.rotate r) (jN : Int) = key := by
        rw [getI, Int.toNat_natCast, List.getD_eq_getElem _ _ hjN]
        exact hjval
      obtain ⟨i, heq2, hi0, hin, hik⟩ :=
        findMinFuel_complete (b.rotate r) p key hp
          ((b.rotate r).length + 1) 0 (((b.rotate r).length : Int) - 1)
          (jN : Int) (by omega) le_rfl (by omega) (by omega) (by omega) hgJ
      rw [findMin, heq2, Option.getD_some] at heq
      omega
  · intro A v hsort
    have hs := pairwise_le_getI A hsort
    have habsent : v ∉ A → ∀ isF : Bool, findBound A v isF = -1 := by
      intro habs isF
      have hsome := findBoundFuel_isSome A v isF
        (A.length + 1) 0 ((A.length : Int) - 1) (by omega)
      obtain ⟨res, hres⟩ := Option.isSome_iff_exists.mp hsome
      have hsound := findBoundFuel_sound A v isF _ 0 _ res le_rfl
        (by omega) hres
      rw [findBound, hres, Option.getD_some]
      rcases hsound with h1 | h2
      · exact h1
      · exfalso
        apply habs
        rw [getI] at h2
        have hmem : A.getD res.toNat 0 ∈ A := by
          rw [List.getD_eq_getElem _ _ (by omega)]
          exact List.getElem_mem _
        rw [h2.2.2] at hmem
        exact hmem
    refine ⟨fun habs => ⟨habsent habs true, habsent habs false⟩, ?_, ?_⟩
    · intro heq hmem
      obtain ⟨fN, hfN, hfv, hfmin⟩ := exists_first_occ A v hmem
      have hfI : getI A (fN : Int) = v := by
        rw [getI, Int.toNat_natCast]
        exact hfv
      have hfminI : ∀ t : Int, 0 ≤ t → t < (fN : Int) → getI A t ≠ v := by
        intro t ht1 ht2
        rw [getI]
        exact hfmin t.toNat (by omega)
      have heq1 := findBoundFuel_first A v hs (fN : Int) (by omega) (by omega)
        hfI hfminI (A.length + 1) 0 ((A.length : Int) - 1) (by omega) le_rfl
        (by omega) (by omega) (by omega)
      rw [findBound, heq1, Option.getD_some] at heq
      omega
    · intro heq hmem
      obtain ⟨lN, hlN, hlv, hlmax⟩ := exists_last_occ A v hmem
      have hlI : getI A (lN : Int) = v := by
        rw [getI, Int.toNat_natCast]
        exact hlv
      have hlmaxI : ∀ t : Int, (lN : Int) < t → t < (A.length : Int) →
          getI A t ≠ v := by
        intro t ht1 ht2
        rw [getI]
        exact hlmax t.toNat (by omega) (by omega)
      have heq2 := findBoundFuel_last A v hs (lN : Int) (by omega) (by omega)
        hlI hlmaxI (A.length + 1) 0 ((A.length : Int) - 1) (by omega) le_rfl
        (by omega) (by omega) (by omega)
      rw [findBound, heq2, Option.getD_some] at heq
      omega

theorem sentinel_iff_absent_witness :
    findMin (([1, 3, 5] : List Int).rotate 2) 4 = -1 ∧
    (findBound ([1, 2, 2, 3] : List Int) 5 true = -1 ∧
     findBound ([1, 2, 2, 3] : List Int) 5 false = -1) :=
  ⟨(sentinel_iff_absent.1 [1, 3, 5] 2 4 (by decide)).1 (by decide),
   (sentinel_iff_absent.2 [1, 2, 2, 3] 5 (by decide)).1 (by decide)⟩

end InterviewPrep
